import Mathlib

/-!
Shallow embedding of the review-trend pipeline (files `src/agent.py`,
`src/analyzer.py`, `src/visualization.py`).

Modelling conventions:
* numpy float vectors are modelled as `List ℚ` (exact arithmetic);
* the external embedding model (`HuggingFaceEmbeddings.embed_query`) is a
  function parameter `embedding_model : String → List ℚ` stored on the
  `TaxonomyManager`, mirroring `self.embedding_model`;
* `sklearn.metrics.pairwise.cosine_similarity` computes
  `dot u v / (|u| * |v|)`, with the convention that a zero vector is left
  unnormalised, so any similarity against it is `0`.  Since square roots are
  irrational, the program's two comparisons on similarities (`np.argmax`'s
  ordering and `best_score >= 0.82`) are embedded as the exact rational
  comparators `simGT` / `simGeThreshold`; the lemmas `simGT_iff` and
  `simGeThreshold_iff` below prove them equivalent to the corresponding
  comparisons of the real-valued cosine similarity `cosineSim`;
* the file system is a path-to-JSON association list `FS`; JSON is the
  inductive `Json`;
* the Groq LLM call is a parameter `llm : String → Except String (List
  ExtractItem)`; an `Except.error` models a raised exception;
* `datetime.now().isoformat()` is a `now : String` parameter.
-/

/-- Embedding vectors (numpy float arrays in the source). -/
abbrev Vec := List ℚ

/-- Dot product of two vectors (pointwise product summed, as in
`cosine_similarity`'s numerator). -/
def dot : Vec → Vec → ℚ
  | a :: as, b :: bs => a * b + dot as bs
  | _, _ => 0

/-- JSON values, for the persisted taxonomy and stats files. -/
inductive Json where
  | num : ℚ → Json
  | str : String → Json
  | arr : List Json → Json
  | obj : List (String × Json) → Json

/-- One taxonomy topic: `{examples: [...], embedding: np.array, created_at: str}`
(see `TaxonomyManager.__init__`, agent.py line 32). -/
structure Topic where
  examples : List String
  embedding : Vec
  created_at : String

/-- `TaxonomyManager`: the in-memory topic dict (a Python dict, i.e. an
insertion-ordered association list with unique keys) plus the embedding
model. -/
structure TaxonomyManager where
  topics : List (String × Topic)
  embedding_model : String → Vec

/-- `get_topic_embedding` (agent.py lines 66-67). -/
def get_topic_embedding (tm : TaxonomyManager) (text : String) : Vec :=
  tm.embedding_model text

/-- `SIMILARITY_THRESHOLD = 0.82` (agent.py line 26). -/
def SIMILARITY_THRESHOLD : ℚ := 82 / 100

/-- Exact test for `a / √N ≥ 0.82` (with value `0` when `N = 0`), where `N`
is the product of the two squared norms.  Used for the source comparison
`best_score >= SIMILARITY_THRESHOLD` (agent.py line 92); `simGeThreshold_iff`
proves it matches the real-valued comparison. -/
def simGeThreshold (a N : ℚ) : Bool :=
  if N = 0 then false
  else decide (0 < a) && decide (SIMILARITY_THRESHOLD ^ 2 * N ≤ a ^ 2)

/-- Exact test for `a / √A > b / √B` (each quotient read as `0` when its
denominator argument is `0`).  This is the comparison `np.argmax` performs
on two similarity scores; `simGT_iff` proves it matches the real-valued
comparison. -/
def simGT (a A b B : ℚ) : Bool :=
  if A = 0 then decide (¬B = 0 ∧ b < 0)
  else if B = 0 then decide (0 < a)
  else if 0 < a then decide (b ≤ 0) || decide (b ^ 2 * A < a ^ 2 * B)
  else if a = 0 then decide (b < 0)
  else decide (b < 0 ∧ a ^ 2 * B < b ^ 2 * A)

/-- The data `np.argmax` needs about one existing topic when resolving a raw
embedding `r`: its name, `dot r e`, and `dot r r * dot e e`. -/
def tripleOf (r : Vec) (p : String × Topic) : String × ℚ × ℚ :=
  (p.1, dot r p.2.embedding, dot r r * dot p.2.embedding p.2.embedding)

/-- `np.argmax` over the similarity row: first index of the maximum (a later
entry replaces the current best only when strictly greater). -/
def argmaxSim : (String × ℚ × ℚ) → List (String × ℚ × ℚ) → String × ℚ × ℚ
  | best, [] => best
  | best, x :: rest => argmaxSim (if simGT x.2.1 x.2.2 best.2.1 best.2.2 then x else best) rest

/-- `TaxonomyManager.map_extracted_topic` (agent.py lines 69-95): empty
taxonomy returns the raw topic; otherwise cosine-similarity argmax over all
existing topics, threshold 0.82. -/
def map_extracted_topic (tm : TaxonomyManager) (raw_topic : String) : String :=
  match tm.topics with
  | [] => raw_topic
  | p :: rest =>
    let r := get_topic_embedding tm raw_topic
    let best := argmaxSim (tripleOf r p) (rest.map (tripleOf r))
    if simGeThreshold best.2.1 best.2.2 then best.1 else raw_topic

/-- `TaxonomyManager.add_new_topic` (agent.py lines 97-105): insert a fresh
topic at the end of the dict when the name is not yet a key. -/
def add_new_topic (tm : TaxonomyManager) (topic_name now : String) : TaxonomyManager :=
  if topic_name ∈ tm.topics.map Prod.fst then tm
  else { tm with
          topics := tm.topics ++
            [(topic_name,
              { examples := [topic_name],
                embedding := get_topic_embedding tm topic_name,
                created_at := now })] }

/-- Association-list lookup (Python `dict` access by key). -/
def alookup {α : Type} : List (String × α) → String → Option α
  | [], _ => none
  | (k, v) :: rest, key => if k = key then some v else alookup rest key

/-- Association-list update: overwrite in place, or append a new key
(Python `dict` assignment / writing a file path). -/
def aset {α : Type} : List (String × α) → String → α → List (String × α)
  | [], key, v => [(key, v)]
  | (k, w) :: rest, key, v => if k = key then (k, v) :: rest else (k, w) :: aset rest key v

/-- The on-disk state: path ↦ JSON content. -/
abbrev FS := List (String × Json)

/-- `TAXONOMY_FILE = "taxonomy.json"` (agent.py line 23). -/
def TAXONOMY_FILE : String := "taxonomy.json"

/-- Serialisation of one topic as written by `save_taxonomy` (agent.py
lines 52-57): embedding via `.tolist()`. -/
def encodeTopic (t : Topic) : Json :=
  .obj [("examples", .arr (t.examples.map .str)),
        ("embedding", .arr (t.embedding.map .num)),
        ("created_at", .str t.created_at)]

/-- The whole serialisable dict built by `save_taxonomy`. -/
def encodeTaxonomy (topics : List (String × Topic)) : Json :=
  .obj (topics.map fun p => (p.1, encodeTopic p.2))

/-- `TaxonomyManager.save_taxonomy` (agent.py lines 49-64): copy the current
file to `taxonomy.json.bak` if it exists, then overwrite the current file. -/
def save_taxonomy (tm : TaxonomyManager) (fs : FS) : FS :=
  let fs1 :=
    match alookup fs TAXONOMY_FILE with
    | some prev => aset fs (TAXONOMY_FILE ++ ".bak") prev
    | none => fs
  aset fs1 TAXONOMY_FILE (encodeTaxonomy tm.topics)

/-- Decode a JSON array of strings (the `examples` field). -/
def decodeStrings : List Json → Option (List String)
  | [] => some []
  | .str s :: rest =>
    match decodeStrings rest with
    | some l => some (s :: l)
    | none => none
  | _ => none

/-- Decode a JSON array of numbers (the `embedding` field, restored with
`np.array` in `load_taxonomy`). -/
def decodeNums : List Json → Option (List ℚ)
  | [] => some []
  | .num q :: rest =>
    match decodeNums rest with
    | some l => some (q :: l)
    | none => none
  | _ => none

/-- Decode one serialised topic. -/
def decodeTopic : Json → Option Topic
  | .obj fields =>
    match alookup fields "examples", alookup fields "embedding", alookup fields "created_at" with
    | some (.arr exs), some (.arr emb), some (.str c) =>
      match decodeStrings exs, decodeNums emb with
      | some es, some vs => some { examples := es, embedding := vs, created_at := c }
      | _, _ => none
    | _, _, _ => none
  | _ => none

/-- Decode the serialised taxonomy dict. -/
def decodeEntries : List (String × Json) → Option (List (String × Topic))
  | [] => some []
  | (k, j) :: rest =>
    match decodeTopic j, decodeEntries rest with
    | some t, some l => some ((k, t) :: l)
    | _, _ => none

/-- Decode a whole taxonomy file. -/
def decodeTaxonomy : Json → Option (List (String × Topic))
  | .obj entries => decodeEntries entries
  | _ => none

/-- `TaxonomyManager.load_taxonomy` (agent.py lines 36-47): a missing file is
a cold start with an empty taxonomy; a present file is parsed (`none`
models a parse failure, which the Python code would raise). -/
def load_taxonomy (fs : FS) : Option (List (String × Topic)) :=
  match alookup fs TAXONOMY_FILE with
  | none => some []
  | some j => decodeTaxonomy j

/-- One raw review record `{reviewId, content, score, at}`. -/
structure Review where
  reviewId : String
  content : String
  score : Int
  «at» : String

/-- One extraction result `{reviewId, topic}`; `topic = none` models an
object without a `"topic"` key (`item.get("topic")` returning `None`). -/
structure ExtractItem where
  reviewId : String
  topic : Option String
deriving DecidableEq

/-- The prompt body built by `extract_topics_batch` (agent.py lines 142-147):
reviews with fewer than 4 characters are skipped. -/
def formatReviews (batch : List Review) : String :=
  batch.foldl
    (fun acc r =>
      if r.content.length < 4 then acc
      else acc ++ "ID: " ++ r.reviewId ++ "\nText: " ++ r.content ++ "\n---\n")
    ""

/-- `ReviewAgent.extract_topics_batch` (agent.py lines 137-157): empty prompt
returns `[]` without calling the model; an exception from the chain is
caught and `[]` is returned. -/
def extract_topics_batch (llm : String → Except String (List ExtractItem))
    (reviews_batch : List Review) : List ExtractItem :=
  let reviews_text := formatReviews reviews_batch
  if reviews_text = "" then []
  else
    match llm reviews_text with
    | .ok result => result
    | .error _ => []

/-- `CHUNK_SIZE = 20` (agent.py line 174). -/
def CHUNK_SIZE : ℕ := 20

/-- `reviews[i:i+CHUNK_SIZE]` for `i in range(0, len(reviews), CHUNK_SIZE)`. -/
def chunksOf {α : Type} (n : ℕ) : List α → List (List α)
  | [] => []
  | x :: xs => (x :: xs.take (n - 1)) :: chunksOf n (xs.drop (n - 1))
termination_by l => l.length
decreasing_by simp [List.length_drop]; omega

/-- Python truthiness test on `item.get("topic")`: present and non-empty. -/
def itemHasTopic (it : ExtractItem) : Bool :=
  match it.topic with
  | none => false
  | some t => decide (¬t = "")

/-- `daily_topics[mapped_topic] = daily_topics.get(mapped_topic, 0) + 1`
(agent.py line 195). -/
def incr : List (String × ℕ) → String → List (String × ℕ)
  | [], key => [(key, 1)]
  | (k, v) :: rest, key => if k = key then (k, v + 1) :: rest else (k, v) :: incr rest key

/-- The body of the inner loop of `process_daily_batch` (agent.py
lines 182-195) for a single extracted item, acting on the pair
(taxonomy manager, daily counts). -/
def processItem (now : String) (st : TaxonomyManager × List (String × ℕ))
    (item : ExtractItem) : TaxonomyManager × List (String × ℕ) :=
  match item.topic with
  | none => st
  | some raw_topic =>
    if raw_topic = "" then st
    else
      let mapped := map_extracted_topic st.1 raw_topic
      let tm := if mapped ∈ st.1.topics.map Prod.fst then st.1
                else add_new_topic st.1 mapped now
      (tm, incr st.2 mapped)

/-- The chunk loop of `process_daily_batch` (agent.py lines 175-197). -/
def processChunks (extract : List Review → List ExtractItem) (now : String)
    (st : TaxonomyManager × List (String × ℕ)) (chunks : List (List Review)) :
    TaxonomyManager × List (String × ℕ) :=
  chunks.foldl (fun acc chunk => (extract chunk).foldl (processItem now) acc) st

/-- The daily stats mapping computed (and then written) by
`process_daily_batch` for a given review list. -/
def dailyCounts (extract : List Review → List ExtractItem) (now : String)
    (tm : TaxonomyManager) (reviews : List Review) : List (String × ℕ) :=
  (processChunks extract now (tm, []) (chunksOf CHUNK_SIZE reviews)).2

/-- The taxonomy state after the chunk loop of `process_daily_batch`. -/
def dailyTaxonomy (extract : List Review → List ExtractItem) (now : String)
    (tm : TaxonomyManager) (reviews : List Review) : TaxonomyManager :=
  (processChunks extract now (tm, []) (chunksOf CHUNK_SIZE reviews)).1

/-- Externally observable steps of `process_daily_batch`, in source order. -/
inductive Event where
  | extractCall
  | writeStats
  | saveTax
  | visualize
deriving DecidableEq

/-- `OUTPUT_DIR = "output"` (agent.py line 25). -/
def OUTPUT_DIR : String := "output"

/-- `os.path.join(OUTPUT_DIR, f"stats_{date_str}.json")` (agent.py line 203). -/
def statsPath (date_str : String) : String :=
  OUTPUT_DIR ++ "/stats_" ++ date_str ++ ".json"

/-- Serialisation of the daily stats dict (`json.dump(daily_topics, f)`). -/
def encodeStats (counts : List (String × ℕ)) : Json :=
  .obj (counts.map fun p => (p.1, .num (p.2 : ℚ)))

/-- `generate_visualizations` (visualization.py lines 50-79): the whole body
runs inside `try/except`, so a raised error leaves the caller's state as it
was and the function returns normally.  `vizRun` is the body (stats loading
and plot writing). -/
def generate_visualizations (vizRun : FS → Except String FS) (fs : FS) : FS :=
  match vizRun fs with
  | .ok fs2 => fs2
  | .error _ => fs

/-- `process_daily_batch` (agent.py lines 160-212): `input = none` models a
missing input file (the `[SKIP]` branch).  Returns the final file system,
the final taxonomy manager, and the ordered event trace. -/
def process_daily_batch (extract : List Review → List ExtractItem)
    (now date_str : String) (tm : TaxonomyManager) (input : Option (List Review))
    (vizRun : FS → Except String FS) (fs : FS) :
    FS × TaxonomyManager × List Event :=
  match input with
  | none => (fs, tm, [])
  | some reviews =>
    let res := processChunks extract now (tm, []) (chunksOf CHUNK_SIZE reviews)
    let fs1 := aset fs (statsPath date_str) (encodeStats res.2)
    let fs2 := save_taxonomy res.1 fs1
    let fs3 := generate_visualizations vizRun fs2
    (fs3, res.1,
      (chunksOf CHUNK_SIZE reviews).map (fun _ => Event.extractCall) ++
        [Event.writeStats, Event.saveTax, Event.visualize])

/-- Lexicographic comparison of char lists by code point (Python string
ordering, used by pandas when sorting string indices). -/
def charListLe : List Char → List Char → Bool
  | [], _ => true
  | _ :: _, [] => false
  | a :: as, b :: bs =>
    if a.toNat < b.toNat then true
    else if b.toNat < a.toNat then false
    else charListLe as bs

/-- String order by code points. -/
def strLe (a b : String) : Bool := charListLe a.data b.data

/-- Insert into a `strLe`-sorted list. -/
def insertStr (s : String) : List String → List String
  | [] => [s]
  | t :: rest => if strLe s t then s :: t :: rest else t :: insertStr s rest

/-- Ascending insertion sort on strings (pandas sorted index / columns). -/
def sortStrings : List String → List String
  | [] => []
  | s :: rest => insertStr s (sortStrings rest)

/-- A per-date stats mapping, as read back from one `stats_*.json` file. -/
abbrev Stats := List (String × ℕ)

/-- One exported report row: topic, per-date counts, and the derived Total. -/
abbrev ReportRow := String × List ℕ × ℕ

/-- The pivot cell for (date, topic): the recorded count, `0` when the topic
is absent for that date (`fill_value=0` in analyzer.py line 49). -/
def cellValue (files : List (String × Stats)) (date topic : String) : ℕ :=
  match alookup files date with
  | none => 0
  | some st => (alookup st topic).getD 0

/-- The date columns: all dates, sorted ascending (`sort_index(axis=1)`,
analyzer.py line 52). -/
def reportDates (files : List (String × Stats)) : List String :=
  sortStrings (files.map Prod.fst)

/-- The topic rows of the pivot: all topics appearing in any file, without
duplicates, sorted ascending (the `pivot_table` index). -/
def reportTopics (files : List (String × Stats)) : List String :=
  sortStrings ((files.map (fun f => f.2.map Prod.fst)).flatten).dedup

/-- Row ordering used for `sort_values(by="Total", ascending=False)`
(analyzer.py line 56). -/
def rowLe (a b : ReportRow) : Prop := b.2.2 ≤ a.2.2

instance : DecidableRel rowLe := fun a b => Nat.decLe b.2.2 a.2.2

instance : IsTotal ReportRow rowLe := ⟨fun a b => le_total b.2.2 a.2.2⟩

instance : IsTrans ReportRow rowLe := ⟨fun _ _ _ h1 h2 => le_trans h2 h1⟩

/-- `generate_report` (analyzer.py lines 42-66) on the list of
(date, daily stats) pairs read from the stats files: pivot with zero fill,
add the Total column as the row sum, sort rows by Total descending. -/
def generate_report (files : List (String × Stats)) : List ReportRow :=
  List.insertionSort rowLe
    ((reportTopics files).map fun t =>
      (t, (reportDates files).map (fun d => cellValue files d t),
        ((reportDates files).map (fun d => cellValue files d t)).sum))

/-- Real-valued reading of an exact similarity test pair: `a / √N`, with the
zero-vector convention giving `0`. -/
noncomputable def val (a N : ℚ) : ℝ :=
  if N = 0 then 0 else (a : ℝ) / Real.sqrt (N : ℝ)

/-- The cosine similarity `sklearn.metrics.pairwise.cosine_similarity`
computes for two vectors: `dot u v / (‖u‖ ‖v‖)`, and `0` when either vector
is zero. -/
noncomputable def cosineSim (u v : Vec) : ℝ :=
  val (dot u v) (dot u u * dot v v)

/-- Sum of all counts in a daily stats mapping. -/
def countsSum (counts : List (String × ℕ)) : ℕ :=
  (counts.map Prod.snd).sum

/-- The invariant `map_extracted_topic`/`add_new_topic` maintain on every
taxonomy the program builds: any two distinct stored topics score strictly
below the similarity threshold against each other (a topic is only created
after failing to match every existing topic). -/
def pairwiseBelow (topics : List (String × Topic)) : Prop :=
  topics.Pairwise fun p q =>
    simGeThreshold (dot p.2.embedding q.2.embedding)
      (dot p.2.embedding p.2.embedding * dot q.2.embedding q.2.embedding) = false

/-- Fixture: a taxonomy holding one topic whose stored embedding is the zero
vector, with an embedding model that sends every string to the zero vector. -/
def tmZeroEmb : TaxonomyManager :=
  { topics := [("crash issue",
      { examples := ["crash issue"], embedding := [0], created_at := "2025-12-24T00:00:00" })],
    embedding_model := fun _ => [0] }

/-- Fixture: a taxonomy holding two distinct topics with identical stored
embeddings, with an embedding model that sends every string to that vector. -/
def tmDupEmb : TaxonomyManager :=
  { topics := [("app crashes",
      { examples := ["app crashes"], embedding := [1], created_at := "2025-12-24T00:00:00" }),
      ("login fails",
      { examples := ["login fails"], embedding := [1], created_at := "2025-12-24T00:00:00" })],
    embedding_model := fun _ => [1] }

/-- Fixture: a one-topic taxonomy whose model maps every phrase to the same
unit vector, so every raw phrase resolves to the stored topic. -/
def tmOneTopic : TaxonomyManager :=
  { topics := [("crash issue",
      { examples := ["crash issue"], embedding := [1], created_at := "2025-12-24T00:00:00" })],
    embedding_model := fun _ => [1] }

/-- Fixture: an extraction item carrying a phrase that resolves into
`tmOneTopic`'s stored topic. -/
def itemC3 : ExtractItem := { reviewId := "r1", topic := some "app crash" }

/-- Fixture: an empty taxonomy manager. -/
def tmEmptyTax : TaxonomyManager := { topics := [], embedding_model := fun _ => [1] }

/-- Fixture: a batch holding one review whose text is shorter than 4
characters. -/
def shortBatch : List Review :=
  [{ reviewId := "r1", content := "ok!", score := 5, «at» := "2025-12-24T10:00:00" }]

/-- Fixture: stats files for three dates; "slow delivery" has counts 2,
absent, 5. -/
def filesC10 : List (String × Stats) :=
  [("2025-12-01", [("slow delivery", 2), ("app crashes", 9)]),
   ("2025-12-02", [("app crashes", 1)]),
   ("2025-12-03", [("slow delivery", 5)])]

lemma dot_comm (u v : Vec) : dot u v = dot v u := by
  induction u generalizing v with
  | nil => cases v <;> simp [dot]
  | cons a as ih =>
    cases v with
    | nil => simp [dot]
    | cons b bs => simp [dot, ih]; ring

lemma dot_self_nonneg (v : Vec) : 0 ≤ dot v v := by
  induction v with
  | nil => simp [dot]
  | cons a as ih => simp only [dot]; nlinarith [sq_nonneg a]

lemma val_of_zero (a : ℚ) : val a 0 = 0 := by simp [val]

lemma threshold_pos : (0 : ℝ) < ((SIMILARITY_THRESHOLD : ℚ) : ℝ) := by
  norm_num [SIMILARITY_THRESHOLD]

lemma threshold_lt_one : ((SIMILARITY_THRESHOLD : ℚ) : ℝ) < 1 := by
  norm_num [SIMILARITY_THRESHOLD]

lemma val_eval (a N : ℚ) (h : N ≠ 0) : val a N = ((a : ℚ) : ℝ) / Real.sqrt ((N : ℚ) : ℝ) := by
  rw [val, if_neg h]

lemma val_neg_iff (b B : ℚ) (hB : 0 < B) : val b B < 0 ↔ b < 0 := by
  have hBR : (0 : ℝ) < ((B : ℚ) : ℝ) := by exact_mod_cast hB
  have hs : 0 < Real.sqrt ((B : ℚ) : ℝ) := Real.sqrt_pos.mpr hBR
  rw [val_eval _ _ (ne_of_gt hB), div_neg_iff]
  constructor
  · rintro (⟨h1, h2⟩ | ⟨h1, h2⟩)
    · exact absurd hs (not_lt.mpr h2.le)
    · exact_mod_cast h1
  · intro hb
    exact Or.inr ⟨by exact_mod_cast hb, hs⟩

lemma val_pos_iff (a A : ℚ) (hA : 0 < A) : 0 < val a A ↔ 0 < a := by
  have hAR : (0 : ℝ) < ((A : ℚ) : ℝ) := by exact_mod_cast hA
  have hs : 0 < Real.sqrt ((A : ℚ) : ℝ) := Real.sqrt_pos.mpr hAR
  rw [val_eval _ _ (ne_of_gt hA), div_pos_iff]
  constructor
  · rintro (⟨h1, h2⟩ | ⟨h1, h2⟩)
    · exact_mod_cast h1
    · exact absurd hs (not_lt.mpr h2.le)
  · intro ha
    exact Or.inl ⟨by exact_mod_cast ha, hs⟩

lemma simGeThreshold_iff (a N : ℚ) (hN : 0 ≤ N) :
    simGeThreshold a N = true ↔ ((SIMILARITY_THRESHOLD : ℚ) : ℝ) ≤ val a N := by
  rcases eq_or_lt_of_le hN with h0 | hpos
  · rw [← h0]
    simp only [simGeThreshold, if_pos rfl, val_of_zero]
    constructor
    · intro h; exact absurd h (by simp)
    · intro h; exact absurd h (not_le.mpr threshold_pos)
  · have hN0 : N ≠ 0 := ne_of_gt hpos
    have hNR : (0 : ℝ) < ((N : ℚ) : ℝ) := by exact_mod_cast hpos
    have hs : 0 < Real.sqrt ((N : ℚ) : ℝ) := Real.sqrt_pos.mpr hNR
    rw [simGeThreshold, if_neg hN0, val_eval _ _ hN0, Bool.and_eq_true,
      decide_eq_true_eq, decide_eq_true_eq, le_div_iff₀ hs]
    constructor
    · rintro ⟨ha, hsq⟩
      have hsq' : ((SIMILARITY_THRESHOLD : ℚ) : ℝ) ^ 2 * ((N : ℚ) : ℝ) ≤ ((a : ℚ) : ℝ) ^ 2 := by
        exact_mod_cast hsq
      have h1 : Real.sqrt (((SIMILARITY_THRESHOLD : ℚ) : ℝ) ^ 2 * ((N : ℚ) : ℝ)) ≤
          Real.sqrt (((a : ℚ) : ℝ) ^ 2) := Real.sqrt_le_sqrt hsq'
      rwa [Real.sqrt_mul (by positivity) _, Real.sqrt_sq threshold_pos.le,
        Real.sqrt_sq (by exact_mod_cast ha.le)] at h1
    · intro h
      have hts : (0 : ℝ) < ((SIMILARITY_THRESHOLD : ℚ) : ℝ) * Real.sqrt ((N : ℚ) : ℝ) :=
        mul_pos threshold_pos hs
      have haR : (0 : ℝ) < ((a : ℚ) : ℝ) := lt_of_lt_of_le hts h
      refine ⟨by exact_mod_cast haR, ?_⟩
      have h2 : (((SIMILARITY_THRESHOLD : ℚ) : ℝ) * Real.sqrt ((N : ℚ) : ℝ)) ^ 2 ≤
          ((a : ℚ) : ℝ) ^ 2 := pow_le_pow_left₀ hts.le h 2
      rw [mul_pow, Real.sq_sqrt hNR.le] at h2
      exact_mod_cast h2

lemma simGT_iff (a A b B : ℚ) (hA : 0 ≤ A) (hB : 0 ≤ B) :
    simGT a A b B = true ↔ val b B < val a A := by
  rcases eq_or_lt_of_le hA with hA0 | hApos
  · -- A = 0, the left value is 0
    have hA0' : A = 0 := hA0.symm
    subst hA0'
    rw [simGT, if_pos rfl, val_of_zero, decide_eq_true_eq]
    rcases eq_or_lt_of_le hB with hB0 | hBpos
    · have hB0' : B = 0 := hB0.symm
      subst hB0'
      simp [val_of_zero]
    · rw [val_neg_iff b B hBpos]
      constructor
      · rintro ⟨-, hb⟩; exact hb
      · intro hb; exact ⟨ne_of_gt hBpos, hb⟩
  · have hA0 : A ≠ 0 := ne_of_gt hApos
    have hAR : (0 : ℝ) < ((A : ℚ) : ℝ) := by exact_mod_cast hApos
    have hsA : 0 < Real.sqrt ((A : ℚ) : ℝ) := Real.sqrt_pos.mpr hAR
    rw [simGT, if_neg hA0]
    rcases eq_or_lt_of_le hB with hB0 | hBpos
    · -- B = 0, the right value is 0
      have hB0' : B = 0 := hB0.symm
      subst hB0'
      rw [if_pos rfl, decide_eq_true_eq, val_of_zero, val_pos_iff a A hApos]
    · have hB0 : B ≠ 0 := ne_of_gt hBpos
      have hBR : (0 : ℝ) < ((B : ℚ) : ℝ) := by exact_mod_cast hBpos
      have hsB : 0 < Real.sqrt ((B : ℚ) : ℝ) := Real.sqrt_pos.mpr hBR
      have hAs : Real.sqrt ((A : ℚ) : ℝ) * Real.sqrt ((A : ℚ) : ℝ) = ((A : ℚ) : ℝ) :=
        Real.mul_self_sqrt hAR.le
      have hBs : Real.sqrt ((B : ℚ) : ℝ) * Real.sqrt ((B : ℚ) : ℝ) = ((B : ℚ) : ℝ) :=
        Real.mul_self_sqrt hBR.le
      rw [if_neg hB0, val_eval _ _ hA0, val_eval _ _ hB0, div_lt_div_iff₀ hsB hsA]
      by_cases ha : 0 < a
      · rw [if_pos ha, Bool.or_eq_true, decide_eq_true_eq, decide_eq_true_eq]
        have haR : (0 : ℝ) < ((a : ℚ) : ℝ) := by exact_mod_cast ha
        constructor
        · rintro (hb | hsq)
          · have hbR : ((b : ℚ) : ℝ) ≤ 0 := by exact_mod_cast hb
            calc ((b : ℚ) : ℝ) * Real.sqrt ((A : ℚ) : ℝ) ≤ 0 :=
                  mul_nonpos_of_nonpos_of_nonneg hbR hsA.le
              _ < ((a : ℚ) : ℝ) * Real.sqrt ((B : ℚ) : ℝ) := mul_pos haR hsB
          · by_cases hb : 0 < b
            · have hbR : (0 : ℝ) < ((b : ℚ) : ℝ) := by exact_mod_cast hb
              have hsq' : ((b : ℚ) : ℝ) ^ 2 * ((A : ℚ) : ℝ) <
                  ((a : ℚ) : ℝ) ^ 2 * ((B : ℚ) : ℝ) := by exact_mod_cast hsq
              nlinarith [mul_pos hbR hsA, mul_pos haR hsB]
            · have hbR : ((b : ℚ) : ℝ) ≤ 0 := by exact_mod_cast not_lt.mp hb
              calc ((b : ℚ) : ℝ) * Real.sqrt ((A : ℚ) : ℝ) ≤ 0 :=
                    mul_nonpos_of_nonpos_of_nonneg hbR hsA.le
                _ < ((a : ℚ) : ℝ) * Real.sqrt ((B : ℚ) : ℝ) := mul_pos haR hsB
        · intro h
          by_cases hb : 0 < b
          · right
            have hbR : (0 : ℝ) < ((b : ℚ) : ℝ) := by exact_mod_cast hb
            have hsq' : ((b : ℚ) : ℝ) ^ 2 * ((A : ℚ) : ℝ) <
                ((a : ℚ) : ℝ) ^ 2 * ((B : ℚ) : ℝ) := by
              nlinarith [mul_pos hbR hsA, mul_pos haR hsB]
            exact_mod_cast hsq'
          · left; exact not_lt.mp hb
      · rw [if_neg ha]
        by_cases ha0 : a = 0
        · rw [if_pos ha0, decide_eq_true_eq, ha0]
          push_cast
          rw [zero_mul]
          constructor
          · intro hb
            have hbR : ((b : ℚ) : ℝ) < 0 := by exact_mod_cast hb
            exact mul_neg_of_neg_of_pos hbR hsA
          · intro h
            by_contra hb
            have hbR : (0 : ℝ) ≤ ((b : ℚ) : ℝ) := by exact_mod_cast not_lt.mp hb
            exact absurd h (not_lt.mpr (mul_nonneg hbR hsA.le))
        · rw [if_neg ha0, decide_eq_true_eq]
          have haneg : ((a : ℚ) : ℝ) < 0 := by
            have hlt : a < 0 := lt_of_le_of_ne (not_lt.mp ha) ha0
            exact_mod_cast hlt
          constructor
          · rintro ⟨hb, hsq⟩
            have hbR : ((b : ℚ) : ℝ) < 0 := by exact_mod_cast hb
            have hsq' : ((a : ℚ) : ℝ) ^ 2 * ((B : ℚ) : ℝ) <
                ((b : ℚ) : ℝ) ^ 2 * ((A : ℚ) : ℝ) := by exact_mod_cast hsq
            nlinarith [mul_neg_of_neg_of_pos hbR hsA, mul_neg_of_neg_of_pos haneg hsB]
          · intro h
            have hb : b < 0 := by
              by_contra hb
              have hbR : (0 : ℝ) ≤ ((b : ℚ) : ℝ) := by exact_mod_cast not_lt.mp hb
              exact absurd h (not_lt.mpr (le_trans
                (mul_neg_of_neg_of_pos haneg hsB).le (mul_nonneg hbR hsA.le)))
            refine ⟨hb, ?_⟩
            have hbR : ((b : ℚ) : ℝ) < 0 := by exact_mod_cast hb
            have hsq' : ((a : ℚ) : ℝ) ^ 2 * ((B : ℚ) : ℝ) <
                ((b : ℚ) : ℝ) ^ 2 * ((A : ℚ) : ℝ) := by
              nlinarith [mul_neg_of_neg_of_pos hbR hsA, mul_neg_of_neg_of_pos haneg hsB]
            exact_mod_cast hsq'

lemma val_self (d : ℚ) (hd : 0 < d) : val d (d * d) = 1 := by
  have hdd : (d * d : ℚ) ≠ 0 := by positivity
  rw [val, if_neg hdd]
  have hcast : ((d * d : ℚ) : ℝ) = ((d : ℚ) : ℝ) * ((d : ℚ) : ℝ) := by push_cast; ring
  have hdR : (0 : ℝ) ≤ ((d : ℚ) : ℝ) := by exact_mod_cast hd.le
  rw [hcast, Real.sqrt_mul_self hdR]
  exact div_self (by exact_mod_cast ne_of_gt hd)

lemma simGeThreshold_self (d : ℚ) (hd : 0 < d) : simGeThreshold d (d * d) = true := by
  have hdd : (d * d : ℚ) ≠ 0 := by positivity
  rw [simGeThreshold, if_neg hdd, Bool.and_eq_true, decide_eq_true_eq, decide_eq_true_eq]
  refine ⟨hd, ?_⟩
  have : SIMILARITY_THRESHOLD ^ 2 ≤ 1 := by norm_num [SIMILARITY_THRESHOLD]
  nlinarith [sq_nonneg d]

lemma argmaxSim_mem (b : String × ℚ × ℚ) (l : List (String × ℚ × ℚ)) :
    argmaxSim b l ∈ b :: l := by
  induction l generalizing b with
  | nil => simp [argmaxSim]
  | cons x rest ih =>
    rw [argmaxSim]
    by_cases h : simGT x.2.1 x.2.2 b.2.1 b.2.2
    · rw [if_pos h]
      rcases List.mem_cons.mp (ih x) with h1 | h1
      · rw [h1]; exact List.mem_cons_of_mem _ (List.mem_cons_self _ _)
      · exact List.mem_cons_of_mem _ (List.mem_cons_of_mem _ h1)
    · rw [if_neg h]
      rcases List.mem_cons.mp (ih b) with h1 | h1
      · rw [h1]; exact List.mem_cons_self _ _
      · exact List.mem_cons_of_mem _ (List.mem_cons_of_mem _ h1)

lemma argmaxSim_ge (b : String × ℚ × ℚ) (l : List (String × ℚ × ℚ))
    (hnn : ∀ x ∈ b :: l, 0 ≤ x.2.2) :
    ∀ x ∈ b :: l, val x.2.1 x.2.2 ≤ val (argmaxSim b l).2.1 (argmaxSim b l).2.2 := by
  induction l generalizing b with
  | nil =>
    intro x hx
    rw [List.mem_singleton] at hx
    rw [hx, argmaxSim]
  | cons y rest ih =>
    have hb : (0:ℚ) ≤ b.2.2 := hnn b (List.mem_cons_self _ _)
    have hy : (0:ℚ) ≤ y.2.2 := hnn y (List.mem_cons_of_mem _ (List.mem_cons_self _ _))
    rw [argmaxSim]
    by_cases h : simGT y.2.1 y.2.2 b.2.1 b.2.2
    · rw [if_pos h]
      have hlt : val b.2.1 b.2.2 < val y.2.1 y.2.2 := (simGT_iff _ _ _ _ hy hb).mp h
      have hnn' : ∀ x ∈ y :: rest, 0 ≤ x.2.2 := by
        intro x hx
        rcases List.mem_cons.mp hx with h1 | h1
        · exact h1 ▸ hy
        · exact hnn x (List.mem_cons_of_mem _ (List.mem_cons_of_mem _ h1))
      intro x hx
      rcases List.mem_cons.mp hx with h1 | h1
      · exact h1 ▸ le_trans hlt.le (ih y hnn' y (List.mem_cons_self _ _))
      · exact ih y hnn' x h1
    · rw [if_neg h]
      have hle : val y.2.1 y.2.2 ≤ val b.2.1 b.2.2 := by
        by_contra hc
        exact h ((simGT_iff _ _ _ _ hy hb).mpr (not_le.mp hc))
      have hnn' : ∀ x ∈ b :: rest, 0 ≤ x.2.2 := by
        intro x hx
        rcases List.mem_cons.mp hx with h1 | h1
        · exact h1 ▸ hb
        · exact hnn x (List.mem_cons_of_mem _ (List.mem_cons_of_mem _ h1))
      intro x hx
      rcases List.mem_cons.mp hx with h1 | h1
      · exact h1 ▸ ih b hnn' b (List.mem_cons_self _ _)
      · rcases List.mem_cons.mp h1 with h2 | h2
        · exact h2 ▸ le_trans hle (ih b hnn' b (List.mem_cons_self _ _))
        · exact ih b hnn' x (List.mem_cons_of_mem _ h2)

lemma argmaxSim_eq_of_top (b m : String × ℚ × ℚ) (l : List (String × ℚ × ℚ))
    (hm : m ∈ b :: l) (hnn : ∀ x ∈ b :: l, 0 ≤ x.2.2)
    (hstrict : ∀ x ∈ b :: l, x ≠ m → val x.2.1 x.2.2 < val m.2.1 m.2.2) :
    argmaxSim b l = m := by
  by_contra hne
  have h1 := argmaxSim_mem b l
  have h2 := argmaxSim_ge b l hnn m hm
  have h3 := hstrict _ h1 hne
  linarith

lemma tripleOf_nonneg (r : Vec) (p : String × Topic) : 0 ≤ (tripleOf r p).2.2 :=
  mul_nonneg (dot_self_nonneg r) (dot_self_nonneg _)

lemma cosineSim_eq_val (u v : Vec) : cosineSim u v = val (dot u v) (dot u u * dot v v) := rfl

lemma pairwiseBelow_symm :
    Symmetric fun p q : String × Topic =>
      simGeThreshold (dot p.2.embedding q.2.embedding)
        (dot p.2.embedding p.2.embedding * dot q.2.embedding q.2.embedding) = false := by
  intro p q h
  rw [dot_comm q.2.embedding p.2.embedding,
    mul_comm (dot q.2.embedding q.2.embedding) (dot p.2.embedding p.2.embedding)]
  exact h

/-- C1 (amended): resolution returns the raw topic on an empty taxonomy;
otherwise it picks a stored topic of maximal cosine similarity and returns
its canonical name when that similarity reaches the 0.82 threshold, the raw
string otherwise.  An input whose embedding equals a stored topic's nonzero
embedding resolves to that topic's name provided distinct stored topics are
pairwise below the threshold (the invariant the insertion rule maintains). -/
theorem c1_map_extracted_topic_resolution (tm : TaxonomyManager) (raw_topic : String) :
    (tm.topics = [] → map_extracted_topic tm raw_topic = raw_topic) ∧
    (tm.topics ≠ [] → ∃ p ∈ tm.topics,
      (∀ q ∈ tm.topics,
        cosineSim (get_topic_embedding tm raw_topic) q.2.embedding ≤
          cosineSim (get_topic_embedding tm raw_topic) p.2.embedding) ∧
      (((SIMILARITY_THRESHOLD : ℚ) : ℝ) ≤
          cosineSim (get_topic_embedding tm raw_topic) p.2.embedding →
        map_extracted_topic tm raw_topic = p.1) ∧
      (cosineSim (get_topic_embedding tm raw_topic) p.2.embedding <
          ((SIMILARITY_THRESHOLD : ℚ) : ℝ) →
        map_extracted_topic tm raw_topic = raw_topic)) ∧
    (∀ name t, (name, t) ∈ tm.topics →
      get_topic_embedding tm raw_topic = t.embedding →
      dot t.embedding t.embedding ≠ 0 →
      pairwiseBelow tm.topics →
      map_extracted_topic tm raw_topic = name) := by
  refine ⟨?_, ?_, ?_⟩
  · intro h
    simp [map_extracted_topic, h]
  · intro hne
    cases htop : tm.topics with
    | nil => exact absurd htop hne
    | cons p0 rest =>
      have hnn : ∀ x ∈ tripleOf (get_topic_embedding tm raw_topic) p0 ::
          rest.map (tripleOf (get_topic_embedding tm raw_topic)), 0 ≤ x.2.2 := by
        intro x hx
        rw [← List.map_cons] at hx
        obtain ⟨s, -, hs⟩ := List.mem_map.mp hx
        exact hs ▸ tripleOf_nonneg _ s
      have hmem : argmaxSim (tripleOf (get_topic_embedding tm raw_topic) p0)
          (rest.map (tripleOf (get_topic_embedding tm raw_topic))) ∈
          (p0 :: rest).map (tripleOf (get_topic_embedding tm raw_topic)) := by
        rw [List.map_cons]
        exact argmaxSim_mem _ _
      obtain ⟨q, hq, hqe⟩ := List.mem_map.mp hmem
      have hbN : 0 ≤ (argmaxSim (tripleOf (get_topic_embedding tm raw_topic) p0)
          (rest.map (tripleOf (get_topic_embedding tm raw_topic)))).2.2 := by
        rw [← hqe]
        exact tripleOf_nonneg _ q
      refine ⟨q, htop ▸ hq, ?_, ?_, ?_⟩
      · intro s hs
        have hmax := argmaxSim_ge (tripleOf (get_topic_embedding tm raw_topic) p0)
          (rest.map (tripleOf (get_topic_embedding tm raw_topic))) hnn
          (tripleOf (get_topic_embedding tm raw_topic) s)
          (by rw [← List.map_cons]
              exact List.mem_map_of_mem _ (htop ▸ hs))
        rw [← hqe] at hmax
        exact hmax
      · intro hth
        have htrue : simGeThreshold (argmaxSim (tripleOf (get_topic_embedding tm raw_topic) p0)
            (rest.map (tripleOf (get_topic_embedding tm raw_topic)))).2.1
            (argmaxSim (tripleOf (get_topic_embedding tm raw_topic) p0)
            (rest.map (tripleOf (get_topic_embedding tm raw_topic)))).2.2 = true := by
          rw [simGeThreshold_iff _ _ hbN, ← hqe]
          exact hth
        simp only [map_extracted_topic, htop]
        rw [if_pos htrue, ← hqe]
        simp [tripleOf]
      · intro hth
        have hfalse : ¬ simGeThreshold (argmaxSim (tripleOf (get_topic_embedding tm raw_topic) p0)
            (rest.map (tripleOf (get_topic_embedding tm raw_topic)))).2.1
            (argmaxSim (tripleOf (get_topic_embedding tm raw_topic) p0)
            (rest.map (tripleOf (get_topic_embedding tm raw_topic)))).2.2 = true := by
          rw [simGeThreshold_iff _ _ hbN, ← hqe]
          exact not_le.mpr hth
        simp only [map_extracted_topic, htop]
        exact if_neg hfalse
  · intro name t hmem hemb hd hpw
    cases htop : tm.topics with
    | nil => rw [htop] at hmem; exact absurd hmem (List.not_mem_nil _)
    | cons p0 rest =>
      have hd_pos : 0 < dot t.embedding t.embedding :=
        lt_of_le_of_ne (dot_self_nonneg _) (Ne.symm hd)
      have hnn : ∀ x ∈ tripleOf (get_topic_embedding tm raw_topic) p0 ::
          rest.map (tripleOf (get_topic_embedding tm raw_topic)), 0 ≤ x.2.2 := by
        intro x hx
        rw [← List.map_cons] at hx
        obtain ⟨s, -, hs⟩ := List.mem_map.mp hx
        exact hs ▸ tripleOf_nonneg _ s
      have hm_eq : tripleOf (get_topic_embedding tm raw_topic) (name, t) =
          (name, dot t.embedding t.embedding,
            dot t.embedding t.embedding * dot t.embedding t.embedding) := by
        simp [tripleOf, hemb]
      have hargmax : argmaxSim (tripleOf (get_topic_embedding tm raw_topic) p0)
          (rest.map (tripleOf (get_topic_embedding tm raw_topic))) =
          tripleOf (get_topic_embedding tm raw_topic) (name, t) := by
        refine argmaxSim_eq_of_top _ _ _ ?_ hnn ?_
        · rw [← List.map_cons]
          exact List.mem_map_of_mem _ (htop ▸ hmem)
        · intro x hx hxm
          rw [← List.map_cons] at hx
          obtain ⟨s, hsmem, hs⟩ := List.mem_map.mp hx
          have hsne : s ≠ (name, t) := by
            intro hcontra
            exact hxm (by rw [← hs, hcontra])
          have hrel := (List.Pairwise.forall pairwiseBelow_symm hpw)
            (htop ▸ hsmem : s ∈ tm.topics) hmem hsne
          have hval_s : val x.2.1 x.2.2 < ((SIMILARITY_THRESHOLD : ℚ) : ℝ) := by
            have hx_eq : x.2.1 = dot s.2.embedding t.embedding ∧
                x.2.2 = dot s.2.embedding s.2.embedding * dot t.embedding t.embedding := by
              constructor
              · rw [← hs]
                simp [tripleOf, hemb, dot_comm]
              · rw [← hs]
                simp only [tripleOf, hemb]
                rw [mul_comm]
            have hnn_s : 0 ≤ dot s.2.embedding s.2.embedding * dot t.embedding t.embedding :=
              mul_nonneg (dot_self_nonneg _) (dot_self_nonneg _)
            rw [hx_eq.1, hx_eq.2]
            by_contra hc
            have := (simGeThreshold_iff _ _ hnn_s).mpr (not_lt.mp hc)
            rw [hrel] at this
            exact Bool.false_ne_true this
          rw [hm_eq]
          have hval_m : val (name, dot t.embedding t.embedding,
              dot t.embedding t.embedding * dot t.embedding t.embedding).2.1
              (name, dot t.embedding t.embedding,
              dot t.embedding t.embedding * dot t.embedding t.embedding).2.2 = 1 :=
            val_self _ hd_pos
          rw [hval_m]
          exact lt_trans hval_s threshold_lt_one
      have htrue : simGeThreshold
          (tripleOf (get_topic_embedding tm raw_topic) (name, t)).2.1
          (tripleOf (get_topic_embedding tm raw_topic) (name, t)).2.2 = true := by
        rw [hm_eq]
        exact simGeThreshold_self _ hd_pos
      simp only [map_extracted_topic, htop, hargmax, hm_eq]
      exact if_pos (simGeThreshold_self _ hd_pos)

/-- C1 counterexample: as literally stated the claim fails twice.  With a
zero stored embedding, an input with the identical embedding scores 0 and is
returned unchanged; with two distinct topics sharing one embedding, an input
with that embedding resolves to the first of them, not the other. -/
theorem c1_counterexample :
    (("crash issue",
        ({ examples := ["crash issue"], embedding := [0],
           created_at := "2025-12-24T00:00:00" } : Topic)) ∈ tmZeroEmb.topics ∧
      get_topic_embedding tmZeroEmb "slow app" = [0] ∧
      map_extracted_topic tmZeroEmb "slow app" = "slow app" ∧
      "slow app" ≠ "crash issue") ∧
    (("login fails",
        ({ examples := ["login fails"], embedding := [1],
           created_at := "2025-12-24T00:00:00" } : Topic)) ∈ tmDupEmb.topics ∧
      get_topic_embedding tmDupEmb "login crash" = [1] ∧
      map_extracted_topic tmDupEmb "login crash" = "app crashes" ∧
      "app crashes" ≠ "login fails") := by
  refine ⟨⟨?_, ?_, ?_, ?_⟩, ⟨?_, ?_, ?_, ?_⟩⟩
  · simp [tmZeroEmb]
  · rfl
  · norm_num [map_extracted_topic, tmZeroEmb, get_topic_embedding, tripleOf,
      argmaxSim, dot, simGeThreshold]
  · decide
  · simp [tmDupEmb]
  · rfl
  · norm_num [map_extracted_topic, tmDupEmb, get_topic_embedding, tripleOf,
      argmaxSim, dot, simGT, simGeThreshold, SIMILARITY_THRESHOLD]
  · decide

/-- C1 witness: the amended identical-embedding property at a concrete
taxonomy. -/
theorem c1_witness : map_extracted_topic tmOneTopic "app crash" = "crash issue" := by
  apply (c1_map_extracted_topic_resolution tmOneTopic "app crash").2.2 "crash issue"
    { examples := ["crash issue"], embedding := [1], created_at := "2025-12-24T00:00:00" }
  · simp [tmOneTopic]
  · rfl
  · norm_num [dot]
  · simp [pairwiseBelow, tmOneTopic]

/-- C6: `add_new_topic` is a no-op on an existing key; on a fresh key it
appends exactly one topic whose examples list is the single phrase, with the
phrase's embedding and the supplied timestamp. -/
theorem c6_add_new_topic_idempotent (tm : TaxonomyManager) (topic_name now : String) :
    (topic_name ∈ tm.topics.map Prod.fst → add_new_topic tm topic_name now = tm) ∧
    (topic_name ∉ tm.topics.map Prod.fst →
      (add_new_topic tm topic_name now).topics =
        tm.topics ++ [(topic_name,
          { examples := [topic_name],
            embedding := get_topic_embedding tm topic_name,
            created_at := now })]) := by
  constructor
  · intro h
    simp [add_new_topic, h]
  · intro h
    simp [add_new_topic, h]

/-- C6 witness: both branches at a concrete taxonomy. -/
theorem c6_witness :
    add_new_topic tmOneTopic "crash issue" "2025-12-25T00:00:00" = tmOneTopic ∧
    (add_new_topic tmOneTopic "slow app" "2025-12-25T00:00:00").topics =
      tmOneTopic.topics ++ [("slow app",
        { examples := ["slow app"], embedding := [1],
          created_at := "2025-12-25T00:00:00" })] := by
  constructor
  · exact (c6_add_new_topic_idempotent tmOneTopic "crash issue" "2025-12-25T00:00:00").1
      (by simp [tmOneTopic])
  · exact (c6_add_new_topic_idempotent tmOneTopic "slow app" "2025-12-25T00:00:00").2
      (by simp [tmOneTopic])

lemma processItem_keys (now : String) (st : TaxonomyManager × List (String × ℕ))
    (item : ExtractItem) :
    (processItem now st item).1.topics.map Prod.fst = st.1.topics.map Prod.fst ∨
    ∃ n, (processItem now st item).1.topics.map Prod.fst = st.1.topics.map Prod.fst ++ [n] ∧
      n ∉ st.1.topics.map Prod.fst := by
  unfold processItem
  cases item.topic with
  | none => left; rfl
  | some raw =>
    by_cases hempty : raw = ""
    · left; simp [hempty]
    · simp only [hempty, if_false]
      by_cases hmem : map_extracted_topic st.1 raw ∈ st.1.topics.map Prod.fst
      · left; simp [hmem]
      · right
        refine ⟨map_extracted_topic st.1 raw, ?_, hmem⟩
        simp [hmem, add_new_topic]

lemma foldl_items_keys (now : String) (items : List ExtractItem)
    (st : TaxonomyManager × List (String × ℕ)) :
    (∀ k ∈ st.1.topics.map Prod.fst,
      k ∈ (items.foldl (processItem now) st).1.topics.map Prod.fst) ∧
    ((st.1.topics.map Prod.fst).Nodup →
      ((items.foldl (processItem now) st).1.topics.map Prod.fst).Nodup) := by
  induction items generalizing st with
  | nil => exact ⟨fun k hk => hk, fun h => h⟩
  | cons it rest ih =>
    simp only [List.foldl_cons]
    have hstep := processItem_keys now st it
    obtain ⟨ihsub, ihnd⟩ := ih (processItem now st it)
    constructor
    · intro k hk
      apply ihsub
      rcases hstep with h | ⟨n, h, hn⟩
      · rw [h]; exact hk
      · rw [h]; exact List.mem_append_left _ hk
    · intro hnd
      apply ihnd
      rcases hstep with h | ⟨n, h, hn⟩
      · rw [h]; exact hnd
      · rw [h]
        rw [List.nodup_append]
        refine ⟨hnd, List.nodup_singleton n, ?_⟩
        intro a ha hb
        rw [List.mem_singleton] at hb
        subst hb
        exact hn ha

lemma processChunks_keys (extract : List Review → List ExtractItem) (now : String)
    (st : TaxonomyManager × List (String × ℕ)) (chunks : List (List Review)) :
    (∀ k ∈ st.1.topics.map Prod.fst,
      k ∈ (processChunks extract now st chunks).1.topics.map Prod.fst) ∧
    ((st.1.topics.map Prod.fst).Nodup →
      ((processChunks extract now st chunks).1.topics.map Prod.fst).Nodup) := by
  induction chunks generalizing st with
  | nil => exact ⟨fun k hk => hk, fun h => h⟩
  | cons ch rest ih =>
    simp only [processChunks, List.foldl_cons]
    have hfold := foldl_items_keys now (extract ch) st
    have ihch := ih ((extract ch).foldl (processItem now) st)
    refine ⟨fun k hk => ihch.1 k (hfold.1 k hk), fun hnd => ihch.2 (hfold.2 hnd)⟩

/-- C7: within a run, every step of the resolve/add sequence preserves all
existing topic keys (the key set only grows) and keeps the keys unique. -/
theorem c7_taxonomy_monotone (extract : List Review → List ExtractItem) (now : String)
    (st : TaxonomyManager × List (String × ℕ)) (chunks : List (List Review))
    (hnd : (st.1.topics.map Prod.fst).Nodup) :
    ((processChunks extract now st chunks).1.topics.map Prod.fst).Nodup ∧
    ∀ k ∈ st.1.topics.map Prod.fst,
      k ∈ (processChunks extract now st chunks).1.topics.map Prod.fst :=
  ⟨(processChunks_keys extract now st chunks).2 hnd,
    (processChunks_keys extract now st chunks).1⟩

/-- C7 witness: a concrete one-chunk run over a one-topic taxonomy. -/
theorem c7_witness :
    ((processChunks (fun _ => [itemC3]) "2025-12-25T00:00:00" (tmOneTopic, [])
        [shortBatch]).1.topics.map Prod.fst).Nodup ∧
    "crash issue" ∈ (processChunks (fun _ => [itemC3]) "2025-12-25T00:00:00" (tmOneTopic, [])
        [shortBatch]).1.topics.map Prod.fst := by
  have h := c7_taxonomy_monotone (fun _ => [itemC3]) "2025-12-25T00:00:00" (tmOneTopic, [])
    [shortBatch] (by simp [tmOneTopic])
  exact ⟨h.1, h.2 "crash issue" (by simp [tmOneTopic])⟩

lemma alookup_append_some {α : Type} (l1 l2 : List (String × α)) (k : String) (v : α)
    (h : alookup l1 k = some v) : alookup (l1 ++ l2) k = some v := by
  induction l1 with
  | nil => simp [alookup] at h
  | cons p rest ih =>
    obtain ⟨k', w⟩ := p
    by_cases hk : k' = k
    · simp only [alookup, if_pos hk] at h
      simp only [List.cons_append, alookup, if_pos hk]
      exact h
    · simp only [alookup, if_neg hk] at h
      simp only [List.cons_append, alookup, if_neg hk]
      exact ih h

lemma add_new_topic_alookup (tm : TaxonomyManager) (n now k : String) (t : Topic)
    (h : alookup tm.topics k = some t) :
    alookup (add_new_topic tm n now).topics k = some t := by
  unfold add_new_topic
  by_cases hmem : n ∈ tm.topics.map Prod.fst
  · simp only [if_pos hmem]
    exact h
  · simp only [if_neg hmem]
    exact alookup_append_some _ _ _ _ h

lemma processItem_alookup (now : String) (st : TaxonomyManager × List (String × ℕ))
    (item : ExtractItem) (k : String) (t : Topic)
    (h : alookup st.1.topics k = some t) :
    alookup (processItem now st item).1.topics k = some t := by
  unfold processItem
  cases item.topic with
  | none => exact h
  | some raw =>
    by_cases hempty : raw = ""
    · simp only [if_pos hempty]
      exact h
    · simp only [if_neg hempty]
      by_cases hmem : map_extracted_topic st.1 raw ∈ st.1.topics.map Prod.fst
      · simp only [if_pos hmem]
        exact h
      · simp only [if_neg hmem]
        exact add_new_topic_alookup _ _ _ _ _ h

lemma foldl_items_alookup (now : String) (items : List ExtractItem)
    (st : TaxonomyManager × List (String × ℕ)) (k : String) (t : Topic)
    (h : alookup st.1.topics k = some t) :
    alookup ((items.foldl (processItem now) st).1.topics) k = some t := by
  induction items generalizing st with
  | nil => exact h
  | cons it rest ih =>
    simp only [List.foldl_cons]
    exact ih _ (processItem_alookup now st it k t h)

/-- C3 (amended): a topic's record is frozen at creation; once present, its
entire record (examples list and embedding alike) is never changed by any
later resolution or insertion, so examples stay exactly the single founding
phrase and the embedding is never recomputed.  Raw phrases that resolve into
an existing topic are counted but NOT appended to its examples. -/
theorem c3_topics_frozen_after_creation (extract : List Review → List ExtractItem)
    (now : String) (st : TaxonomyManager × List (String × ℕ)) (chunks : List (List Review))
    (k : String) (t : Topic) (h : alookup st.1.topics k = some t) :
    alookup ((processChunks extract now st chunks).1.topics) k = some t := by
  induction chunks generalizing st with
  | nil => exact h
  | cons ch rest ih =>
    simp only [processChunks, List.foldl_cons]
    exact ih _ (foldl_items_alookup now (extract ch) st k t h)

/-- C3 counterexample: a raw phrase that resolves to an existing topic is not
appended to that topic's examples; the record is left untouched. -/
theorem c3_counterexample :
    map_extracted_topic tmOneTopic "app crash" = "crash issue" ∧
    (processItem "2025-12-25T00:00:00" (tmOneTopic, []) itemC3).1 = tmOneTopic ∧
    ((alookup (processItem "2025-12-25T00:00:00" (tmOneTopic, []) itemC3).1.topics
        "crash issue").map Topic.examples) = some ["crash issue"] ∧
    "app crash" ∉ (["crash issue"] : List String) := by
  have hmap : map_extracted_topic tmOneTopic "app crash" = "crash issue" := c1_witness
  have hproc : (processItem "2025-12-25T00:00:00" (tmOneTopic, []) itemC3).1 = tmOneTopic := by
    simp only [processItem, itemC3]
    rw [if_neg (by decide : ¬("app crash" = ""))]
    rw [hmap]
    rw [if_pos (by simp [tmOneTopic])]
  refine ⟨hmap, hproc, ?_, by decide⟩
  rw [hproc]
  rfl

/-- C3 witness: record preservation at a concrete run. -/
theorem c3_witness :
    alookup ((processChunks (fun _ => [itemC3]) "2025-12-25T00:00:00" (tmOneTopic, [])
      [shortBatch]).1.topics) "crash issue" =
      some { examples := ["crash issue"], embedding := [1],
             created_at := "2025-12-24T00:00:00" } :=
  c3_topics_frozen_after_creation (fun _ => [itemC3]) "2025-12-25T00:00:00" (tmOneTopic, [])
    [shortBatch] "crash issue" _ rfl

lemma incr_countsSum (c : List (String × ℕ)) (k : String) :
    countsSum (incr c k) = countsSum c + 1 := by
  induction c with
  | nil => simp [incr, countsSum]
  | cons p rest ih =>
    obtain ⟨k', v⟩ := p
    by_cases h : k' = k
    · simp only [incr, if_pos h, countsSum, List.map_cons, List.sum_cons]
      omega
    · simp only [incr, if_neg h, countsSum, List.map_cons, List.sum_cons] at *
      omega

lemma processItem_countsSum (now : String) (st : TaxonomyManager × List (String × ℕ))
    (item : ExtractItem) :
    countsSum (processItem now st item).2 =
      countsSum st.2 + (if itemHasTopic item then 1 else 0) := by
  unfold processItem itemHasTopic
  cases item.topic with
  | none => simp
  | some raw =>
    by_cases h : raw = ""
    · simp [h]
    · simp [h, incr_countsSum]

lemma foldl_items_countsSum (now : String) (items : List ExtractItem)
    (st : TaxonomyManager × List (String × ℕ)) :
    countsSum ((items.foldl (processItem now) st).2) =
      countsSum st.2 + (items.filter itemHasTopic).length := by
  induction items generalizing st with
  | nil => simp
  | cons it rest ih =>
    simp only [List.foldl_cons]
    rw [ih (processItem now st it), processItem_countsSum]
    by_cases h : itemHasTopic it
    · simp only [List.filter_cons, h, if_true, List.length_cons]
      omega
    · simp only [List.filter_cons, h, if_false, Bool.false_eq_true]
      omega

lemma processChunks_countsSum (extract : List Review → List ExtractItem) (now : String)
    (st : TaxonomyManager × List (String × ℕ)) (chunks : List (List Review)) :
    countsSum (processChunks extract now st chunks).2 =
      countsSum st.2 +
        (chunks.map fun ch => ((extract ch).filter itemHasTopic).length).sum := by
  induction chunks generalizing st with
  | nil => simp [processChunks]
  | cons ch rest ih =>
    simp only [processChunks, List.foldl_cons, List.map_cons, List.sum_cons] at *
    rw [ih, foldl_items_countsSum]
    omega

lemma chunksOf_twenty_length {α : Type} (l : List α) :
    (chunksOf 20 l).length = (l.length + 19) / 20 := by
  have key : ∀ (N : ℕ) (l : List α), l.length ≤ N →
      (chunksOf 20 l).length = (l.length + 19) / 20 := by
    intro N
    induction N with
    | zero =>
      intro l h
      have hnil : l = [] := List.eq_nil_of_length_eq_zero (Nat.le_zero.mp h)
      subst hnil
      simp [chunksOf]
    | succ N ih =>
      intro l h
      cases l with
      | nil => simp [chunksOf]
      | cons x xs =>
        simp only [List.length_cons] at h
        simp only [chunksOf, List.length_cons]
        rw [ih (xs.drop (20 - 1)) (by rw [List.length_drop]; omega)]
        rw [List.length_drop]
        omega
  exact key l.length l le_rfl

/-- C2: with input present, the batch makes one extractor call per chunk of
20 (that is, ceil(N / 20) calls), and the total of the written DailyStats
counts equals the number of extraction items with a non-empty topic across
all chunk calls. -/
theorem c2_chunking_and_count_conservation (extract : List Review → List ExtractItem)
    (now date_str : String) (tm : TaxonomyManager) (reviews : List Review)
    (vizRun : FS → Except String FS) (fs : FS) :
    ((process_daily_batch extract now date_str tm (some reviews) vizRun fs).2.2.countP
        (fun e => decide (e = Event.extractCall))) = (reviews.length + 19) / 20 ∧
    countsSum (dailyCounts extract now tm reviews) =
      ((chunksOf CHUNK_SIZE reviews).map
        (fun ch => ((extract ch).filter itemHasTopic).length)).sum := by
  constructor
  · simp only [process_daily_batch]
    rw [List.countP_append, List.countP_map]
    have h1 : List.countP ((fun e => decide (e = Event.extractCall)) ∘
        (fun _ : List Review => Event.extractCall)) (chunksOf CHUNK_SIZE reviews) =
        (chunksOf CHUNK_SIZE reviews).length := by
      rw [List.countP_eq_length]
      intro a _
      simp
    rw [h1]
    have h2 : List.countP (fun e => decide (e = Event.extractCall))
        [Event.writeStats, Event.saveTax, Event.visualize] = 0 := by decide
    rw [h2]
    simpa [CHUNK_SIZE] using chunksOf_twenty_length reviews
  · unfold dailyCounts
    rw [processChunks_countsSum]
    simp [countsSum]

lemma alookup_aset_self {α : Type} (fs : List (String × α)) (p : String) (v : α) :
    alookup (aset fs p v) p = some v := by
  induction fs with
  | nil => simp [aset, alookup]
  | cons q rest ih =>
    obtain ⟨k, w⟩ := q
    by_cases h : k = p
    · simp [aset, alookup, h]
    · simp [aset, alookup, h, ih]

lemma alookup_aset_ne {α : Type} (fs : List (String × α)) (p q : String) (v : α)
    (h : p ≠ q) : alookup (aset fs p v) q = alookup fs q := by
  induction fs with
  | nil => simp [aset, alookup, h]
  | cons r rest ih =>
    obtain ⟨k, w⟩ := r
    by_cases hk : k = p
    · subst hk
      simp [aset, alookup, h]
    · simp [aset, alookup, hk, ih]

lemma tax_ne_bak : TAXONOMY_FILE ≠ TAXONOMY_FILE ++ ".bak" := by decide

lemma save_taxonomy_current (tm : TaxonomyManager) (fs : FS) :
    alookup (save_taxonomy tm fs) TAXONOMY_FILE = some (encodeTaxonomy tm.topics) := by
  unfold save_taxonomy
  cases alookup fs TAXONOMY_FILE <;> exact alookup_aset_self _ _ _

/-- C4 (amended): when a previous taxonomy file exists, `save()` writes both
the current file and the backup, the backup receiving the previous persisted
version; hence after two consecutive saves the backup equals the taxonomy as
of the first save.  The very first save (no file yet) writes only the
current file and no backup. -/
theorem c4_backup_one_generation_behind (tm tm2 : TaxonomyManager) (fs : FS) :
    (∀ prev, alookup fs TAXONOMY_FILE = some prev →
      alookup (save_taxonomy tm fs) (TAXONOMY_FILE ++ ".bak") = some prev ∧
      alookup (save_taxonomy tm fs) TAXONOMY_FILE = some (encodeTaxonomy tm.topics)) ∧
    (alookup (save_taxonomy tm2 (save_taxonomy tm fs)) (TAXONOMY_FILE ++ ".bak") =
      some (encodeTaxonomy tm.topics) ∧
     alookup (save_taxonomy tm2 (save_taxonomy tm fs)) TAXONOMY_FILE =
      some (encodeTaxonomy tm2.topics)) := by
  constructor
  · intro prev hprev
    constructor
    · unfold save_taxonomy
      rw [hprev]
      rw [alookup_aset_ne _ _ _ _ tax_ne_bak]
      exact alookup_aset_self _ _ _
    · exact save_taxonomy_current tm fs
  · constructor
    · have hcur := save_taxonomy_current tm fs
      conv_lhs => rw [save_taxonomy]
      rw [hcur]
      rw [alookup_aset_ne _ _ _ _ tax_ne_bak]
      exact alookup_aset_self _ _ _
    · exact save_taxonomy_current tm2 (save_taxonomy tm fs)

/-- C4 counterexample: the first-ever `save()` from an empty disk writes a
single file and no backup, contradicting "every call writes two files". -/
theorem c4_counterexample :
    (save_taxonomy tmEmptyTax []).length = 1 ∧
    alookup (save_taxonomy tmEmptyTax []) (TAXONOMY_FILE ++ ".bak") = none :=
  ⟨rfl, rfl⟩

/-- C4 witness: both saves at a concrete starting file system. -/
theorem c4_witness :
    alookup (save_taxonomy tmEmptyTax [(TAXONOMY_FILE, Json.str "old")])
      (TAXONOMY_FILE ++ ".bak") = some (Json.str "old") ∧
    alookup (save_taxonomy tmOneTopic (save_taxonomy tmEmptyTax []))
      (TAXONOMY_FILE ++ ".bak") = some (encodeTaxonomy tmEmptyTax.topics) := by
  constructor
  · exact ((c4_backup_one_generation_behind tmEmptyTax tmOneTopic
      [(TAXONOMY_FILE, Json.str "old")]).1 (Json.str "old") rfl).1
  · exact (c4_backup_one_generation_behind tmEmptyTax tmOneTopic []).2.1

lemma decodeStrings_encode (l : List String) :
    decodeStrings (l.map Json.str) = some l := by
  induction l with
  | nil => rfl
  | cons s rest ih => simp [decodeStrings, ih]

lemma decodeNums_encode (l : List ℚ) :
    decodeNums (l.map Json.num) = some l := by
  induction l with
  | nil => rfl
  | cons q rest ih => simp [decodeNums, ih]

lemma decodeTopic_encode (t : Topic) : decodeTopic (encodeTopic t) = some t := by
  simp [decodeTopic, encodeTopic, alookup, decodeStrings_encode, decodeNums_encode]

lemma decodeEntries_encode (topics : List (String × Topic)) :
    decodeEntries (topics.map fun p => (p.1, encodeTopic p.2)) = some topics := by
  induction topics with
  | nil => rfl
  | cons p rest ih => simp [decodeEntries, decodeTopic_encode, ih]

/-- C5: `save()` followed by `load()` reproduces the taxonomy exactly — the
same keys in the same order, the same example lists, and the same embedding
vectors (exact equality, hence within any serialisation tolerance). -/
theorem c5_save_load_roundtrip (tm : TaxonomyManager) (fs : FS) :
    load_taxonomy (save_taxonomy tm fs) = some tm.topics := by
  unfold load_taxonomy
  rw [save_taxonomy_current]
  simp [decodeTaxonomy, encodeTaxonomy, decodeEntries_encode]

lemma format_fold_filter (batch : List Review) (acc : String) :
    batch.foldl (fun acc r => if r.content.length < 4 then acc
      else acc ++ "ID: " ++ r.reviewId ++ "\nText: " ++ r.content ++ "\n---\n") acc =
    (batch.filter fun r => decide (¬ r.content.length < 4)).foldl
      (fun acc r => if r.content.length < 4 then acc
        else acc ++ "ID: " ++ r.reviewId ++ "\nText: " ++ r.content ++ "\n---\n") acc := by
  induction batch generalizing acc with
  | nil => rfl
  | cons r rest ih =>
    by_cases h : r.content.length < 4
    · rw [List.foldl_cons, if_pos h, List.filter_cons, if_neg (by simp [h])]
      exact ih acc
    · rw [List.foldl_cons, if_neg h, List.filter_cons, if_pos (by simp [h]),
        List.foldl_cons, if_neg h]
      exact ih _

lemma format_fold_all_short (batch : List Review) (acc : String)
    (h : ∀ r ∈ batch, r.content.length < 4) :
    batch.foldl (fun acc r => if r.content.length < 4 then acc
      else acc ++ "ID: " ++ r.reviewId ++ "\nText: " ++ r.content ++ "\n---\n") acc = acc := by
  induction batch generalizing acc with
  | nil => rfl
  | cons r rest ih =>
    simp only [List.foldl_cons, if_pos (h r (List.mem_cons_self _ _))]
    exact ih acc fun s hs => h s (List.mem_cons_of_mem _ hs)

lemma format_fold_length (batch : List Review) (acc : String) :
    acc.length ≤ (batch.foldl (fun acc r => if r.content.length < 4 then acc
      else acc ++ "ID: " ++ r.reviewId ++ "\nText: " ++ r.content ++ "\n---\n") acc).length := by
  induction batch generalizing acc with
  | nil => exact le_refl _
  | cons r rest ih =>
    simp only [List.foldl_cons]
    by_cases h : r.content.length < 4
    · rw [if_pos h]
      exact ih acc
    · rw [if_neg h]
      refine le_trans ?_ (ih _)
      simp only [String.length_append]
      omega

lemma format_fold_pos (batch : List Review) (acc : String)
    (h : ∃ r ∈ batch, ¬ r.content.length < 4) :
    0 < (batch.foldl (fun acc r => if r.content.length < 4 then acc
      else acc ++ "ID: " ++ r.reviewId ++ "\nText: " ++ r.content ++ "\n---\n") acc).length := by
  induction batch generalizing acc with
  | nil => obtain ⟨r, hr, -⟩ := h; exact absurd hr (List.not_mem_nil r)
  | cons r rest ih =>
    simp only [List.foldl_cons]
    by_cases hr : r.content.length < 4
    · rw [if_pos hr]
      obtain ⟨s, hs, hlong⟩ := h
      rcases List.mem_cons.mp hs with h1 | h1
      · exact absurd hr (h1 ▸ hlong)
      · exact ih acc ⟨s, h1, hlong⟩
    · rw [if_neg hr]
      refine lt_of_lt_of_le ?_ (format_fold_length rest _)
      simp only [String.length_append]
      have hid : ("ID: " : String).length = 4 := rfl
      omega

/-- C8: the extractor skips reviews shorter than 4 characters; it returns
an empty list when the filtered batch is empty (independently of the model,
so no call is observable) and when the model call raises; when the filtered
batch is non-empty and the call succeeds, its parsed result is returned
unchanged. -/
theorem c8_extractor_degradation (batch : List Review) :
    (formatReviews batch =
      formatReviews (batch.filter fun r => decide (¬ r.content.length < 4))) ∧
    ((∀ r ∈ batch, r.content.length < 4) →
      ∀ llm, extract_topics_batch llm batch = []) ∧
    (∀ llm e, llm (formatReviews batch) = .error e →
      extract_topics_batch llm batch = []) ∧
    ((∃ r ∈ batch, ¬ r.content.length < 4) →
      ∀ llm items, llm (formatReviews batch) = .ok items →
        extract_topics_batch llm batch = items) := by
  refine ⟨?_, ?_, ?_, ?_⟩
  · exact format_fold_filter batch ""
  · intro h llm
    have hfmt : formatReviews batch = "" := format_fold_all_short batch "" h
    simp [extract_topics_batch, hfmt]
  · intro llm e he
    by_cases hfmt : formatReviews batch = ""
    · simp [extract_topics_batch, hfmt]
    · simp only [extract_topics_batch, if_neg hfmt]
      rw [he]
  · intro hex llm items hok
    have hpos : 0 < (formatReviews batch).length := format_fold_pos batch "" hex
    have hfmt : ¬ formatReviews batch = "" := by
      intro hcontra
      rw [hcontra] at hpos
      simp at hpos
    simp only [extract_topics_batch, if_neg hfmt]
    rw [hok]

/-- C8 witness: a batch whose single review is 3 characters long yields no
extraction, whatever the model would have answered. -/
theorem c8_witness :
    extract_topics_batch (fun _ => Except.ok [itemC3]) shortBatch = [] :=
  (c8_extractor_degradation shortBatch).2.1
    (by intro r hr
        simp only [shortBatch, List.mem_singleton] at hr
        subst hr
        decide)
    (fun _ => Except.ok [itemC3])

lemma statsPath_ne_tax (d : String) : statsPath d ≠ TAXONOMY_FILE := by
  intro h
  have hlen := congrArg String.length h
  simp only [statsPath, OUTPUT_DIR, TAXONOMY_FILE, String.length_append] at hlen
  have h1 : ("output" : String).length = 6 := rfl
  have h2 : ("/stats_" : String).length = 7 := rfl
  have h3 : (".json" : String).length = 5 := rfl
  have h4 : ("taxonomy.json" : String).length = 13 := rfl
  omega

lemma statsPath_ne_bak (d : String) : statsPath d ≠ TAXONOMY_FILE ++ ".bak" := by
  intro h
  have hlen := congrArg String.length h
  simp only [statsPath, OUTPUT_DIR, TAXONOMY_FILE, String.length_append] at hlen
  have h1 : ("output" : String).length = 6 := rfl
  have h2 : ("/stats_" : String).length = 7 := rfl
  have h3 : (".json" : String).length = 5 := rfl
  have h4 : ("taxonomy.json" : String).length = 13 := rfl
  have h5 : (".bak" : String).length = 4 := rfl
  omega

lemma save_taxonomy_preserves (tm : TaxonomyManager) (fs : FS) (p : String)
    (hp1 : p ≠ TAXONOMY_FILE) (hp2 : p ≠ TAXONOMY_FILE ++ ".bak") :
    alookup (save_taxonomy tm fs) p = alookup fs p := by
  unfold save_taxonomy
  cases h : alookup fs TAXONOMY_FILE with
  | none =>
    simp only []
    exact alookup_aset_ne _ _ _ _ (Ne.symm hp1)
  | some prev =>
    simp only []
    rw [alookup_aset_ne _ _ _ _ (Ne.symm hp1), alookup_aset_ne _ _ _ _ (Ne.symm hp2)]

/-- C9: on a completed batch the event trace is the extract calls followed by
the stats write, then the taxonomy save, then (last) the visualizer; the
visualizer catches its own failure and returns the file system unchanged, so
a visualization failure leaves the already-written stats file and taxonomy
file intact. -/
theorem c9_persistence_before_visualization (extract : List Review → List ExtractItem)
    (now date_str : String) (tm : TaxonomyManager) (reviews : List Review)
    (vizRun : FS → Except String FS) (fs : FS) :
    (process_daily_batch extract now date_str tm (some reviews) vizRun fs).2.2 =
      (chunksOf CHUNK_SIZE reviews).map (fun _ => Event.extractCall) ++
        [Event.writeStats, Event.saveTax, Event.visualize] ∧
    (∀ fsx e, vizRun fsx = .error e → generate_visualizations vizRun fsx = fsx) ∧
    (∀ e, vizRun (save_taxonomy (dailyTaxonomy extract now tm reviews)
        (aset fs (statsPath date_str) (encodeStats (dailyCounts extract now tm reviews)))) =
          .error e →
      alookup (process_daily_batch extract now date_str tm (some reviews) vizRun fs).1
          (statsPath date_str) = some (encodeStats (dailyCounts extract now tm reviews)) ∧
      alookup (process_daily_batch extract now date_str tm (some reviews) vizRun fs).1
          TAXONOMY_FILE =
        some (encodeTaxonomy (dailyTaxonomy extract now tm reviews).topics)) := by
  refine ⟨rfl, ?_, ?_⟩
  · intro fsx e he
    unfold generate_visualizations
    rw [he]
  · intro e he
    have hfs : (process_daily_batch extract now date_str tm (some reviews) vizRun fs).1 =
        generate_visualizations vizRun
          (save_taxonomy (dailyTaxonomy extract now tm reviews)
            (aset fs (statsPath date_str)
              (encodeStats (dailyCounts extract now tm reviews)))) := rfl
    rw [hfs]
    unfold generate_visualizations
    rw [he]
    constructor
    · rw [save_taxonomy_preserves _ _ _ (statsPath_ne_tax _) (statsPath_ne_bak _)]
      exact alookup_aset_self _ _ _
    · exact save_taxonomy_current _ _

/-- C9 witness: a concrete empty batch with a failing visualizer still ends
with the stats file and the saved taxonomy on disk, visualizer last. -/
theorem c9_witness :
    (process_daily_batch (fun _ => []) "T" "2025-12-24" tmEmptyTax (some [])
        (fun _ => Except.error "plot failure") []).2.2 =
      [Event.writeStats, Event.saveTax, Event.visualize] ∧
    alookup (process_daily_batch (fun _ => []) "T" "2025-12-24" tmEmptyTax (some [])
        (fun _ => Except.error "plot failure") []).1 (statsPath "2025-12-24") =
      some (encodeStats (dailyCounts (fun _ => []) "T" tmEmptyTax [])) ∧
    alookup (process_daily_batch (fun _ => []) "T" "2025-12-24" tmEmptyTax (some [])
        (fun _ => Except.error "plot failure") []).1 TAXONOMY_FILE =
      some (encodeTaxonomy (dailyTaxonomy (fun _ => []) "T" tmEmptyTax []).topics) := by
  have h := c9_persistence_before_visualization (fun _ => []) "T" "2025-12-24" tmEmptyTax []
    (fun _ => Except.error "plot failure") []
  have hcalls := (h.2.2 "plot failure" rfl)
  refine ⟨?_, hcalls.1, hcalls.2⟩
  rw [h.1]
  simp [chunksOf]

/-- C10: the trend report contains, for every topic appearing in the stats
files, a row holding its per-date counts over the sorted date columns with
zero fill for missing dates and a Total equal to the row sum; and the rows
are ordered by Total descending.  The date keys are assumed distinct, as
they are on disk (one stats file per date). -/
theorem c10_trend_report_pivot (files : List (String × Stats)) (t : String)
    (_hd : (files.map Prod.fst).Nodup) (ht : t ∈ reportTopics files) :
    (t, (reportDates files).map (fun d => cellValue files d t),
      ((reportDates files).map (fun d => cellValue files d t)).sum) ∈
        generate_report files ∧
    List.Sorted (fun a b : ℕ => b ≤ a) ((generate_report files).map (fun r => r.2.2)) := by
  constructor
  · have hperm := List.perm_insertionSort rowLe
      ((reportTopics files).map fun s =>
        (s, (reportDates files).map (fun d => cellValue files d s),
          ((reportDates files).map (fun d => cellValue files d s)).sum))
    rw [generate_report, hperm.mem_iff]
    exact List.mem_map_of_mem _ ht
  · have hsorted := List.sorted_insertionSort rowLe
      ((reportTopics files).map fun s =>
        (s, (reportDates files).map (fun d => cellValue files d s),
          ((reportDates files).map (fun d => cellValue files d s)).sum))
    rw [generate_report]
    rw [List.Sorted, List.pairwise_map]
    exact hsorted

/-- C10 witness: the claim's concrete scenario — counts 2, absent, 5 over
three dates export as the row [2, 0, 5] with Total 7, and the report rows
are ordered by Total descending. -/
theorem c10_witness :
    ("slow delivery", [2, 0, 5], 7) ∈ generate_report filesC10 ∧
    List.Sorted (fun a b : ℕ => b ≤ a) ((generate_report filesC10).map (fun r => r.2.2)) := by
  have h := c10_trend_report_pivot filesC10 "slow delivery" (by decide) (by decide)
  refine ⟨?_, h.2⟩
  have hrow : (reportDates filesC10).map (fun d => cellValue filesC10 d "slow delivery") =
      [2, 0, 5] := by decide
  have h1 := h.1
  rw [hrow] at h1
  have hsum : ([2, 0, 5] : List ℕ).sum = 7 := rfl
  rw [hsum] at h1
  exact h1

lemma map_not_mem_below (tm : TaxonomyManager) (raw : String)
    (h : map_extracted_topic tm raw ∉ tm.topics.map Prod.fst) :
    map_extracted_topic tm raw = raw ∧
    ∀ q ∈ tm.topics,
      simGeThreshold (dot (get_topic_embedding tm raw) q.2.embedding)
        (dot (get_topic_embedding tm raw) (get_topic_embedding tm raw) *
          dot q.2.embedding q.2.embedding) = false := by
  cases htop : tm.topics with
  | nil =>
    constructor
    · simp [map_extracted_topic, htop]
    · intro q hq
      exact absurd hq (List.not_mem_nil q)
  | cons p0 rest =>
    have hnn : ∀ x ∈ tripleOf (get_topic_embedding tm raw) p0 ::
        rest.map (tripleOf (get_topic_embedding tm raw)), 0 ≤ x.2.2 := by
      intro x hx
      rw [← List.map_cons] at hx
      obtain ⟨s, -, hs⟩ := List.mem_map.mp hx
      exact hs ▸ tripleOf_nonneg _ s
    have hmem : argmaxSim (tripleOf (get_topic_embedding tm raw) p0)
        (rest.map (tripleOf (get_topic_embedding tm raw))) ∈
        (p0 :: rest).map (tripleOf (get_topic_embedding tm raw)) := by
      rw [List.map_cons]
      exact argmaxSim_mem _ _
    obtain ⟨q0, hq0, hq0e⟩ := List.mem_map.mp hmem
    have hbN : 0 ≤ (argmaxSim (tripleOf (get_topic_embedding tm raw) p0)
        (rest.map (tripleOf (get_topic_embedding tm raw)))).2.2 := by
      rw [← hq0e]
      exact tripleOf_nonneg _ q0
    by_cases hth : simGeThreshold
        (argmaxSim (tripleOf (get_topic_embedding tm raw) p0)
          (rest.map (tripleOf (get_topic_embedding tm raw)))).2.1
        (argmaxSim (tripleOf (get_topic_embedding tm raw) p0)
          (rest.map (tripleOf (get_topic_embedding tm raw)))).2.2 = true
    · exfalso
      apply h
      have hres : map_extracted_topic tm raw =
          (argmaxSim (tripleOf (get_topic_embedding tm raw) p0)
            (rest.map (tripleOf (get_topic_embedding tm raw)))).1 := by
        simp only [map_extracted_topic, htop]
        exact if_pos hth
      rw [hres, ← hq0e]
      have : (tripleOf (get_topic_embedding tm raw) q0).1 = q0.1 := rfl
      rw [this, htop]
      exact List.mem_map_of_mem _ hq0
    · have hres : map_extracted_topic tm raw = raw := by
        simp only [map_extracted_topic, htop]
        exact if_neg hth
      refine ⟨hres, ?_⟩
      have hbest_lt : val (argmaxSim (tripleOf (get_topic_embedding tm raw) p0)
          (rest.map (tripleOf (get_topic_embedding tm raw)))).2.1
          (argmaxSim (tripleOf (get_topic_embedding tm raw) p0)
          (rest.map (tripleOf (get_topic_embedding tm raw)))).2.2 <
          ((SIMILARITY_THRESHOLD : ℚ) : ℝ) := by
        by_contra hc
        exact hth ((simGeThreshold_iff _ _ hbN).mpr (not_lt.mp hc))
      intro q hq
      have hqN : 0 ≤ dot (get_topic_embedding tm raw) (get_topic_embedding tm raw) *
          dot q.2.embedding q.2.embedding :=
        mul_nonneg (dot_self_nonneg _) (dot_self_nonneg _)
      have hle := argmaxSim_ge (tripleOf (get_topic_embedding tm raw) p0)
        (rest.map (tripleOf (get_topic_embedding tm raw))) hnn
        (tripleOf (get_topic_embedding tm raw) q)
        (by rw [← List.map_cons]
            exact List.mem_map_of_mem _ (htop ▸ hq))
      rw [Bool.eq_false_iff]
      intro hcontra
      have hge := (simGeThreshold_iff _ _ hqN).mp hcontra
      exact absurd (le_trans hge hle) (not_le.mpr hbest_lt)

lemma processItem_pairwiseBelow (now : String) (st : TaxonomyManager × List (String × ℕ))
    (item : ExtractItem) (h : pairwiseBelow st.1.topics) :
    pairwiseBelow (processItem now st item).1.topics := by
  unfold processItem
  cases item.topic with
  | none => exact h
  | some raw =>
    by_cases hempty : raw = ""
    · simp only [if_pos hempty]
      exact h
    · simp only [if_neg hempty]
      by_cases hmem : map_extracted_topic st.1 raw ∈ st.1.topics.map Prod.fst
      · simp only [if_pos hmem]
        exact h
      · simp only [if_neg hmem]
        obtain ⟨hraw, hbelow⟩ := map_not_mem_below st.1 raw hmem
        unfold add_new_topic
        rw [if_neg hmem]
        unfold pairwiseBelow at h ⊢
        rw [List.pairwise_append]
        refine ⟨h, List.pairwise_singleton _ _, ?_⟩
        intro q hq x hx
        rw [List.mem_singleton] at hx
        subst hx
        simp only [hraw]
        have hfact := hbelow q hq
        rw [dot_comm q.2.embedding (get_topic_embedding st.1 raw),
          mul_comm (dot q.2.embedding q.2.embedding)
            (dot (get_topic_embedding st.1 raw) (get_topic_embedding st.1 raw))]
        exact hfact

/-- The insertion rule keeps every taxonomy it builds pairwise below the
similarity threshold: the invariant hypothesis of the amended C1 statement
is maintained by the whole chunk loop. -/
lemma processChunks_pairwiseBelow (extract : List Review → List ExtractItem) (now : String)
    (st : TaxonomyManager × List (String × ℕ)) (chunks : List (List Review))
    (h : pairwiseBelow st.1.topics) :
    pairwiseBelow (processChunks extract now st chunks).1.topics := by
  induction chunks generalizing st with
  | nil => exact h
  | cons ch rest ih =>
    simp only [processChunks, List.foldl_cons]
    apply ih
    clear ih
    induction extract ch generalizing st with
    | nil => exact h
    | cons it its ihh =>
      simp only [List.foldl_cons]
      exact ihh _ (processItem_pairwiseBelow now st it h)
